import Mathlib

/-!
Shallow embedding of the pxsort pixel-sorting engine (src/lib.rs, src/heuristic.rs,
src/path.rs) and verification of the frozen specification claims.

Machine integers (u8, u16, u32) are modelled as `Nat`; every place where the Rust
arithmetic could wrap or truncate is noted and either modelled explicitly or proved
impossible.  `f32` values that flow through exact arithmetic are modelled as `Rat`;
values produced by transcendental functions (sin, cos, tan) are universally
quantified rationals, since every `f32` is a rational.
-/

/-- Model of `image::Rgba<u8>`: a 4-channel 8-bit pixel.  `data[0..4] = [r, g, b, a]`. -/
structure Rgba where
  r : Nat
  g : Nat
  b : Nat
  a : Nat
deriving DecidableEq, Repr

/-- The `data[..3]` slice of a pixel: the color channels in R, G, B order. -/
def Rgba.rgb (p : Rgba) : List Nat := [p.r, p.g, p.b]

/-- Model of `pixel_max` (src/heuristic.rs): `data[..3].iter().max()`.  The slice
`[r, g, b]` is never empty, so `unwrap_or_default` never produces its 0 default
and the result is the maximum of the three channels. -/
def pixel_max (p : Rgba) : Nat := Nat.max p.r (Nat.max p.g p.b)

/-- Model of `pixel_min` (src/heuristic.rs): `data[..3].iter().min()` on the
nonempty slice `[r, g, b]`. -/
def pixel_min (p : Rgba) : Nat := Nat.min p.r (Nat.min p.g p.b)

/-- Model of `pixel_chroma` (src/heuristic.rs): `pixel_max - pixel_min`.
The u8 subtraction cannot underflow because max is at least min; `Nat`
truncated subtraction agrees with it. -/
def pixel_chroma (p : Rgba) : Nat := pixel_max p - pixel_min p

/-- Model of `Iterator::max_by_key` on an enumerated list: Rust returns the LAST
element attaining the maximal key.  The fold keeps the later element on ties. -/
def maxByKeyLast : List (Nat × Nat) → Option (Nat × Nat)
  | [] => none
  | x :: xs => some (xs.foldl (fun acc y => if acc.2 ≤ y.2 then y else acc) x)

/-- Model of `pixel_hue` (src/heuristic.rs).  All intermediate values stay below 256
(the quotient `|d| / c` is 0 or 1 because `|d| ≤ chroma`), so the u8 casts and
arithmetic never wrap and plain `Nat` arithmetic is exact.  The signed i16
intermediates are modelled with `Int` subtraction and `Int.natAbs`. -/
def pixel_hue (p : Rgba) : Nat :=
  let c := pixel_chroma p
  if c = 0 then 0
  else
    match maxByKeyLast [(0, p.r), (1, p.g), (2, p.b)] with
    | some (0, _) => ((p.g : Int) - (p.b : Int)).natAbs / c * 43
    | some (1, _) => ((p.b : Int) - (p.r : Int)).natAbs / c * 43 + 85
    | some (2, _) => ((p.r : Int) - (p.g : Int)).natAbs / c * 43 + 171
    | _ => 0

/-- Reference definition following the spec's words for `Hue` (spec §4.1): maximal
channel chosen with ties broken by FIRST-found in R, G, B order.  Kept separate
from `pixel_hue` so the two can be compared. -/
def specHue (p : Rgba) : Nat :=
  let c := pixel_chroma p
  if c = 0 then 0
  else if p.g ≤ p.r ∧ p.b ≤ p.r then ((p.g : Int) - (p.b : Int)).natAbs / c * 43
  else if p.b ≤ p.g then ((p.b : Int) - (p.r : Int)).natAbs / c * 43 + 85
  else ((p.r : Int) - (p.g : Int)).natAbs / c * 43 + 171

/-- Model of `pixel_saturation` (src/heuristic.rs): 0 when the max channel is 0,
otherwise `chroma / max` in u8 integer division. -/
def pixel_saturation (p : Rgba) : Nat :=
  match pixel_max p with
  | 0 => 0
  | v => pixel_chroma p / v

/-- Model of `pixel_brightness` (src/heuristic.rs): overflow-free integer average. -/
def pixel_brightness (p : Rgba) : Nat :=
  p.r / 3 + p.g / 3 + p.b / 3 + (p.r % 3 + p.g % 3 + p.b % 3) / 3

/-- Model of `pixel_luma` (src/heuristic.rs): `(2R + G + 4B) >> 3` in u16 arithmetic
(for channels below 256 the sum is at most 1785, so u16 never wraps, and the
shifted result is at most 223, so the cast back to u8 is exact). -/
def pixel_luma (p : Rgba) : Nat := (p.r * 2 + p.g + p.b * 4) >>> 3

/-- Model of the `Heuristic` enum (src/heuristic.rs), including the hidden
`__Nonexhaustive` variant. -/
inductive Heuristic where
  | luma | brightness | hmax | hmin | chroma | hue | saturation | value
  | red | blue | green
  | nonexhaustive
deriving DecidableEq, Repr

/-- Model of `Heuristic::func` (src/heuristic.rs).  The `__Nonexhaustive` arm is
`unreachable!()` in the source, modelled as `none`; every concrete variant
yields a total key function. -/
def Heuristic.func : Heuristic → Option (Rgba → Nat)
  | .red => some fun p => p.r
  | .green => some fun p => p.g
  | .blue => some fun p => p.b
  | .hmax => some pixel_max
  | .value => some pixel_max
  | .hmin => some pixel_min
  | .chroma => some pixel_chroma
  | .hue => some pixel_hue
  | .saturation => some pixel_saturation
  | .brightness => some pixel_brightness
  | .luma => some pixel_luma
  | .nonexhaustive => none

/-- Model of the `Shape` enum (src/path.rs), parameters as exact rationals,
including the hidden `__Nonexhaustive` variant. -/
inductive Shape where
  | linear
  | sine (amplitude lambda offset : Rat)
  | ellipse (eccentricity : Rat) (center : Rat × Rat)
  | nonexhaustive
deriving DecidableEq, Repr

/-- Model of the `Config` struct (src/lib.rs); the hidden `__` field is dropped. -/
structure Config where
  minimum : Nat
  maximum : Nat
  function : Heuristic
  reverse : Bool
  invert : Bool
  vertical : Bool
  mask_alpha : Bool
  angle : Rat
  path : Shape

/-- Model of a successfully parsed `f32` value as consumed by `check_angle`: a
finite value (an exact rational), one of the two infinities, or NaN.
`str::parse::<f32>` accepts inputs such as "inf", "-inf" and "NaN", and the
comparisons in `check_angle` treat each class differently, so all of them must
be representable. -/
inductive F32 where
  | finite (q : Rat)
  | inf
  | negInf
  | nan
deriving DecidableEq, Repr

/-- Model of the f32 comparison `ang >= 90.0` (src/lib.rs line 20): true for
+inf, false for -inf, and false for NaN (IEEE comparisons with NaN are false). -/
def f32Ge90 : F32 → Bool
  | .finite q => decide (q ≥ 90)
  | .inf => true
  | .negInf => false
  | .nan => false

/-- Model of the f32 comparison `ang <= -90.0` (src/lib.rs line 20): true for
-inf, false for +inf, and false for NaN. -/
def f32LeNeg90 : F32 → Bool
  | .finite q => decide (q ≤ -90)
  | .inf => false
  | .negInf => true
  | .nan => false

/-- Model of `check_angle` (src/lib.rs 16-25).  The `String → f32` parse is
external library code; its outcome is modelled as `Option F32` (`none` = parse
failure, `some ang` = the parsed value, including the NaN and infinity outcomes
the real parser can produce). -/
def check_angle (angle : Option F32) : Except String Unit :=
  match angle with
  | none => Except.error "Could not parse as a number"
  | some ang =>
      if f32Ge90 ang || f32LeNeg90 ang then
        Except.error "Rotation angle must be between -90 and +90 degrees"
      else
        Except.ok ()

/-- Model of the `mask_fn` closure in `Config::do_sort` (src/lib.rs line 98). -/
def mask_fn (cfg : Config) (p : Rgba) : Bool := !(cfg.mask_alpha && p.a == 0)

/-- Model of the first `take_while` predicate in `Config::do_sort`
(src/lib.rs line 107): the selection predicate for sortable runs. -/
def selPred (cfg : Config) (key : Rgba → Nat) (p : Rgba) : Bool :=
  ((decide (cfg.minimum ≤ key p) && decide (key p ≤ cfg.maximum)) != cfg.invert)
    && mask_fn cfg p

/-- Model of the second `take_while` predicate in `Config::do_sort`
(src/lib.rs line 127): the skip predicate for non-sortable stretches. -/
def skipPred (cfg : Config) (key : Rgba → Nat) (p : Rgba) : Bool :=
  ((decide (key p < cfg.minimum) || decide (cfg.maximum < key p)) != cfg.invert)
    || !mask_fn cfg p

/-- Model of the comparator passed to `sort_unstable_by` in `Config::do_sort`
(src/lib.rs lines 112-118), as the corresponding `≤` relation on keys. -/
def sortLe (cfg : Config) (key : Rgba → Nat) (l r : Rgba) : Prop :=
  if cfg.reverse then key r ≤ key l else key l ≤ key r

instance (cfg : Config) (key : Rgba → Nat) : DecidableRel (sortLe cfg key) := by
  intro l r
  unfold sortLe
  infer_instance

/-- Model of `Config::do_sort` (src/lib.rs lines 96-131).  The while loop over the
slice is expressed as recursion on the remaining suffix: take the maximal run of
selected pixels, sort it with the comparator, take the following maximal run of
skipped pixels unchanged, and recurse on the rest.  `sort_unstable_by` is modelled
as `List.insertionSort` by the comparator's order (the exact permutation among
equal keys is implementation-defined in the source). -/
def do_sort (cfg : Config) (key : Rgba → Nat) : List Rgba → List Rgba
  | [] => []
  | p :: rest =>
    let l := p :: rest
    let good := l.takeWhile (selPred cfg key)
    let rest1 := l.drop good.length
    let bad := rest1.takeWhile (skipPred cfg key)
    let rest2 := rest1.drop bad.length
    List.insertionSort (sortLe cfg key) good ++ bad ++ do_sort cfg key rest2
termination_by l => l.length
decreasing_by
  simp only [List.length_drop]
  have hneg : skipPred cfg key p = !(selPred cfg key p) := by
    unfold selPred skipPred
    rcases le_or_lt cfg.minimum (key p) with h1 | h1 <;>
    rcases le_or_lt (key p) cfg.maximum with h2 | h2 <;>
    cases cfg.invert <;> cases mask_fn cfg p <;>
    simp_all [Nat.not_le.2, decide_eq_true, Nat.not_lt.2]
  by_cases hs : selPred cfg key p = true
  · have hg : ((p :: rest).takeWhile (selPred cfg key)).length ≥ 1 := by
      simp [List.takeWhile_cons, hs]
    simp only [List.length_cons]
    omega
  · have hg : ((p :: rest).takeWhile (selPred cfg key)).length = 0 := by
      simp [List.takeWhile_cons, hs]
    have hsk : skipPred cfg key p = true := by
      rw [hneg]
      simp [Bool.eq_false_iff.2 hs]
    have hb : (((p :: rest).drop 0).takeWhile (skipPred cfg key)).length ≥ 1 := by
      simp [List.takeWhile_cons, hsk]
    simp only [hg, List.length_cons] at *
    omega

/-- An image coordinate (x, y). -/
abbrev Coord := Nat × Nat

/-- Model of an RGBA pixel buffer, as the total map from coordinates to pixels
(only values at coordinates inside the image rectangle are ever consulted). -/
abbrev Buf := Coord → Rgba

/-- Model of `ImageBuffer::put_pixel` at one coordinate. -/
def updateBuf (b : Buf) (c : Coord) (v : Rgba) : Buf := fun x => if x = c then v else b x

/-- Model of the write-back loop `for ((idx_x, idx_y), px) in idxes.iter().zip(pixels)`
in `Config::sort`: successive `put_pixel` calls at the scan line's coordinates. -/
def writeBack : List Coord → List Rgba → Buf → Buf
  | i :: is, p :: ps, b => writeBack is ps (updateBuf b i p)
  | _, _, b => b

/-- Model of one scan-line step of `Config::sort`: read the pixels at the line's
coordinates from the snapshot (`rgba.clone()` in the source), sort them with
`do_sort`, and write the result back into the target buffer. -/
def processLine (cfg : Config) (key : Rgba → Nat) (snap : Buf) (idxes : List Coord) (b : Buf) : Buf :=
  writeBack idxes (do_sort cfg key (idxes.map snap)) b

/-- Model of the scan-line loop of `Config::sort`: fold the per-line step over the
generated scan lines, all reading from the same snapshot. -/
def processLines (cfg : Config) (key : Rgba → Nat) (snap : Buf) : List (List Coord) → Buf → Buf
  | [], b => b
  | ln :: ls, b => processLines cfg key snap ls (processLine cfg key snap ln b)

/-- Multiset of pixel values of a buffer over a list of coordinates (the histogram
of the image region covered by `coords`). -/
def histogram (b : Buf) (coords : List Coord) : Multiset Rgba := (coords.map b : List Rgba)

/-- Model of a Rust `expr as u32` cast applied to a nonnegative-or-small f32 value:
truncation toward zero, saturating at 0 for negative inputs. -/
def ratToU32 (q : Rat) : Nat := if q < 0 then 0 else (⌊q⌋).toNat

/-- Model of `(tan * w as f32).floor() as i64` (src/lib.rs line 275). -/
def extra_height (tan : Rat) (w : Nat) : Int := ⌊tan * (w : Rat)⌋

/-- Model of a Rust `Range<i64>` `a..b` as the list of its elements in order. -/
def rangeZ (a b : Int) : List Int := (List.range (b - a).toNat).map (fun i => a + Int.ofNat i)

/-- Model of the `row_idx` range of the angled-Linear branch (src/lib.rs 276-280):
`-extra_height..h` when `extra_height > 0`, else `0..(h - extra_height)`. -/
def linearRange (tan : Rat) (w h : Nat) : List Int :=
  if extra_height tan w > 0 then rangeZ (-(extra_height tan w)) (h : Int)
  else rangeZ 0 ((h : Int) - extra_height tan w)

/-- Model of the scan line of the angled-Linear branch (src/lib.rs 290-293):
map each x in `0..w` to `(x, (x * tan + row_idx) as u32)` and keep coordinates
with `y > 0 && y < h`.  `tan` stands for the f32 value `angle.to_radians().tan()`,
an arbitrary rational since every finite f32 is rational. -/
def linearIdxes (tan : Rat) (row : Int) (w h : Nat) : List Coord :=
  ((List.range w).map (fun x => ((x : Nat), ratToU32 ((x : Rat) * tan + (row : Rat))))).filter
    (fun c => decide (0 < c.2) && decide (c.2 < h))

/-- Reference definition following the spec's words for the angled-Linear scan
line (spec §4.2): `y = round(x*tan(angle) + row_idx)`, discarding out-of-range and
zero y.  Kept separate from `linearIdxes` so the two can be compared. -/
def specLinearIdxes (tan : Rat) (row : Int) (w h : Nat) : List Coord :=
  (((List.range w).map (fun x => ((x : Int), round ((x : Rat) * tan + (row : Rat))))).filter
    (fun c => decide (0 < c.2) && decide (c.2 < (h : Int)))).map
    (fun c => (c.1.toNat, c.2.toNat))

/-- Model of one image row: row y left to right.  For positive width this is one
chunk of the `chunks_mut(w)` call of the Linear angle-0 branch (src/lib.rs
319-325); see `chunksMut` for the call itself, including its w = 0 panic. -/
def rowLine (w : Nat) (y : Nat) : List Coord := (List.range w).map (fun x => (x, y))

/-- All rows of a `w × h` image, in order: the chunks that `chunks_mut(w)`
produces on the row-major pixel list when `w > 0` (proved in `C3_totality`). -/
def rowLines (w h : Nat) : List (List Coord) := (List.range h).map (rowLine w)

/-- All coordinates of a `w × h` image, row-major (the order of `Pixels`). -/
def allCoords (w h : Nat) : List Coord := (rowLines w h).flatten

/-- Consecutive chunks of size `w' + 1` of a list: the result of
`slice::chunks_mut(w' + 1)` (the last chunk may be shorter). -/
def chunksList {α : Type} (w' : Nat) : List α → List (List α)
  | [] => []
  | a :: rest => ((a :: rest).take (w' + 1)) :: chunksList w' ((a :: rest).drop (w' + 1))
termination_by l => l.length
decreasing_by
  simp only [List.length_drop, List.length_cons]
  omega

/-- Model of the `chunks_mut(w as usize)` call of the Linear angle-0 branch
(src/lib.rs line 323): `chunks_mut` PANICS ("chunk size must be non-zero") when
the chunk size is 0 — even on an empty slice — modelled as `none`; for positive
chunk size it yields the consecutive chunks of the row-major pixel list. -/
def chunksMut {α : Type} (w : Nat) (l : List α) : Option (List (List α)) :=
  match w with
  | 0 => none
  | Nat.succ w' => some (chunksList w' l)

/-- Model of the shared clip step of the Sine and Ellipse branches
(src/lib.rs 193-199 and 251-257): keep points with `0 ≤ x < w` and `0 ≤ y < h` and
floor them to pixel coordinates.  The incoming `pts` are the f32 curve samples
(after amplitude/rotation/translation), quantified as arbitrary rationals since
every finite f32 is rational. -/
def clipFloor (w h : Nat) (pts : List (Rat × Rat)) : List Coord :=
  pts.filterMap (fun pt =>
    if 0 ≤ pt.1 ∧ pt.1 < (w : Rat) ∧ 0 ≤ pt.2 ∧ pt.2 < (h : Rat) then
      some ((⌊pt.1⌋).toNat, (⌊pt.2⌋).toNat)
    else none)

/-- Model of `Vec::dedup` (used at src/lib.rs line 201): remove CONSECUTIVE
repeated elements, keeping the first of each run. -/
def dedup {α : Type} [DecidableEq α] : List α → List α
  | [] => []
  | [x] => [x]
  | x :: y :: rest => if x = y then dedup (x :: rest) else x :: dedup (y :: rest)
termination_by l => l.length
decreasing_by all_goals simp_arith

/-- Model of one Ellipse shell's scan line (src/lib.rs 186-201): the floored,
clipped coordinate sequence of the shell's angular samples, then `Vec::dedup`. -/
def ellipseShellLine (w h : Nat) (samples : List (Rat × Rat)) : List Coord :=
  dedup (clipFloor w h samples)

/-- The four branches of the `match self.path` dispatch in `Config::sort`
(src/lib.rs 158-337), in source order. -/
inductive PathBranch where
  | ellipseBranch (eccentricity : Rat) (center : Rat × Rat)
  | sineBranch (amplitude lambda offset : Rat)
  | linearAngled
  | linearStraight
deriving DecidableEq, Repr

/-- Model of the `match self.path` dispatch of `Config::sort`: which branch runs.
The wildcard arm `_ => unreachable!()` (src/lib.rs line 336), reached only for the
hidden `Shape::__Nonexhaustive`, is modelled as `none`. -/
def sortBranch (cfg : Config) : Option PathBranch :=
  match cfg.path with
  | .ellipse e c => some (.ellipseBranch e c)
  | .sine a l o => some (.sineBranch a l o)
  | .linear => if cfg.angle ≠ 0 then some .linearAngled else some .linearStraight
  | .nonexhaustive => none

/-- Model of Rust `char::is_whitespace` restricted to the ASCII whitespace that can
appear in configuration strings. -/
def isWsCh (c : Char) : Bool := c == ' ' || c == '\t' || c == '\n' || c == '\r'

/-- Leading-whitespace strip. -/
def trimL (l : List Char) : List Char := l.dropWhile isWsCh

/-- Model of Rust `str::trim`: strip whitespace from both ends. -/
def trimStr (l : List Char) : List Char := (trimL ((trimL l).reverse)).reverse

/-- Model of Rust `str::split(sep)`: split at every separator occurrence; the
result is never empty and keeps empty fragments (`"".split(',')` gives `[""]`). -/
def splitOnCh (sep : Char) : List Char → List (List Char)
  | [] => [[]]
  | c :: rest =>
    match splitOnCh sep rest with
    | [] => [[]]
    | h :: t => if c = sep then [] :: h :: t else (c :: h) :: t

/-- Numeric value of a digit string, most significant first. -/
def digitsVal (l : List Char) : Nat := l.foldl (fun acc c => acc * 10 + (c.toNat - 48)) 0

/-- Model of the external `str::parse::<f32>` library routine on the plain signed
decimal literals used by the shape grammar: optional sign, digits, optional
fraction.  Parse failure is `none`; a successful parse yields the exact value. -/
def parseNum (l : List Char) : Option Rat :=
  match splitOnCh '.' (if l.head? = some '-' ∨ l.head? = some '+' then l.tail else l) with
  | [ip] =>
      if ip ≠ [] ∧ ip.all Char.isDigit then
        some ((if l.head? = some '-' then (-1 : Rat) else 1) * (digitsVal ip : Rat))
      else none
  | [ip, fp] =>
      if ip ≠ [] ∧ ip.all Char.isDigit ∧ fp.all Char.isDigit then
        some ((if l.head? = some '-' then (-1 : Rat) else 1) *
          ((digitsVal ip : Rat) + (digitsVal fp : Rat) / ((10 : Rat) ^ fp.length)))
      else none
  | _ => none

/-- The four interchangeable bracket pairs of the shape grammar (src/path.rs 42-45). -/
def brackPairs : List (Char × Char) := [('(', ')'), ('[', ']'), ('\x7b', '\x7d'), ('<', '>')]

/-- Model of `unwrap_parens` (src/path.rs 39-51): trim, require a matching bracket
pair at the two ends, and return the inside. -/
def unwrap_parens (s : List Char) : Option (List Char) :=
  if ((trimStr s).head? = some '(' ∧ (trimStr s).getLast? = some ')')
      ∨ ((trimStr s).head? = some '[' ∧ (trimStr s).getLast? = some ']')
      ∨ ((trimStr s).head? = some '\x7b' ∧ (trimStr s).getLast? = some '\x7d')
      ∨ ((trimStr s).head? = some '<' ∧ (trimStr s).getLast? = some '>') then
    some (((trimStr s).drop 1).dropLast)
  else
    none

/-- The error message of `Shape::from_str` (src/path.rs line 62), echoing the
offending (trimmed) input. -/
def errMsg (st : List Char) : List Char :=
  ("Could not parse `".toList) ++ st ++ ("` as a valid path shape".toList)

/-- Default sine shape (src/path.rs 7-11). -/
def DEFAULT_SINE : Shape := .sine 25 50 0

/-- Default ellipse shape (src/path.rs 12-15). -/
def DEFAULT_ELL : Shape := .ellipse 0 (1/2, 1/2)

/-- Model of `Shape::from_str` (src/path.rs 53-133).  The `Result` collect over
per-argument parses is `mapM` into `Option`; any argument failure, like any
malformed bracketing, produces the configuration error `errMsg`. -/
def shapeFromStr (s : List Char) : Except (List Char) Shape :=
  if trimStr s = [] ∨ trimStr s = ("line".toList) ∨ trimStr s = ("linear".toList) then .ok .linear
  else if trimStr s = ("sine".toList) then .ok DEFAULT_SINE
  else if trimStr s = ("circle".toList) ∨ trimStr s = ("ellipse".toList) then .ok DEFAULT_ELL
  else
    if ("sine".toList).isPrefixOf (trimStr s) then
      match unwrap_parens ((trimStr s).drop 4) with
      | none => .error (errMsg (trimStr s))
      | some inner =>
        match (splitOnCh ',' inner).mapM (fun a => parseNum (trimStr a)) with
        | none => .error (errMsg (trimStr s))
        | some args =>
          match args with
          | [] => .ok DEFAULT_SINE
          | [a] => .ok (.sine a 50 0)
          | [a, p] => .ok (.sine a p 0)
          | [a, p, o] => .ok (.sine a p o)
          | _ => .error (errMsg (trimStr s))
    else if ("circle".toList).isPrefixOf (trimStr s) then
      match unwrap_parens ((trimStr s).drop 6) with
      | none => .error (errMsg (trimStr s))
      | some inner =>
        match (splitOnCh ',' inner).mapM (fun a => parseNum (trimStr a)) with
        | none => .error (errMsg (trimStr s))
        | some args =>
          match args with
          | [] => .ok DEFAULT_ELL
          | [cx, cy] => .ok (.ellipse 0 (cx, cy))
          | _ => .error (errMsg (trimStr s))
    else if ("ellipse".toList).isPrefixOf (trimStr s) then
      match unwrap_parens ((trimStr s).drop 7) with
      | none => .error (errMsg (trimStr s))
      | some inner =>
        match (splitOnCh ',' inner).mapM (fun a => parseNum (trimStr a)) with
        | none => .error (errMsg (trimStr s))
        | some args =>
          match args with
          | [] => .ok DEFAULT_ELL
          | [e] => .ok (.ellipse e (1/2, 1/2))
          | [cx, cy] => .ok (.ellipse 0 (cx, cy))
          | [e, cx, cy] => .ok (.ellipse e (cx, cy))
          | _ => .error (errMsg (trimStr s))
    else
      .error (errMsg (trimStr s))

/-! ## Helper lemmas -/

theorem skipPred_eq_not_selPred (cfg : Config) (key : Rgba → Nat) (p : Rgba) :
    skipPred cfg key p = !(selPred cfg key p) := by
  unfold selPred skipPred
  rcases le_or_lt cfg.minimum (key p) with h1 | h1 <;>
  rcases le_or_lt (key p) cfg.maximum with h2 | h2 <;>
  cases cfg.invert <;> cases mask_fn cfg p <;>
  simp_all [Nat.not_le.2, decide_eq_true, Nat.not_lt.2]

theorem drop_length_takeWhile (q : Rgba → Bool) (l : List Rgba) :
    l.drop (l.takeWhile q).length = l.dropWhile q := by
  induction l with
  | nil => rfl
  | cons x xs ih =>
    by_cases h : q x = true <;> simp [List.takeWhile_cons, List.dropWhile_cons, h, ih]

theorem tdw_split (q : Rgba → Bool) (l : List Rgba) :
    l.takeWhile q ++ l.drop (l.takeWhile q).length = l := by
  rw [drop_length_takeWhile]
  exact List.takeWhile_append_dropWhile q l

theorem do_sort_perm (cfg : Config) (key : Rgba → Nat) (l : List Rgba) :
    List.Perm (do_sort cfg key l) l := by
  induction l using do_sort.induct cfg key with
  | case1 => rw [do_sort]
  | case2 p rest l good rest1 bad rest2 ih =>
    rw [do_sort]
    refine List.Perm.trans
      (List.Perm.append (List.Perm.append (List.perm_insertionSort _ _) (List.Perm.refl _)) ih) ?_
    rw [List.append_assoc, tdw_split, tdw_split]

theorem writeBack_notMem (idxes : List Coord) (pixels : List Rgba) (b : Buf) (c : Coord)
    (hc : c ∉ idxes) : writeBack idxes pixels b c = b c := by
  induction idxes generalizing pixels b with
  | nil => cases pixels <;> rfl
  | cons i is ih =>
    cases pixels with
    | nil => rfl
    | cons p ps =>
      have hci : c ≠ i := fun h => hc (h ▸ List.mem_cons_self i is)
      have hcs : c ∉ is := fun h => hc (List.mem_cons_of_mem i h)
      rw [writeBack, ih ps _ hcs]
      simp [updateBuf, hci]

theorem map_writeBack (idxes : List Coord) (pixels : List Rgba) (b : Buf)
    (hnd : idxes.Nodup) (hlen : pixels.length = idxes.length) :
    idxes.map (writeBack idxes pixels b) = pixels := by
  induction idxes generalizing pixels b with
  | nil => cases pixels with
    | nil => rfl
    | cons p ps => simp at hlen
  | cons i is ih =>
    cases pixels with
    | nil => simp at hlen
    | cons p ps =>
      rw [List.nodup_cons] at hnd
      rw [writeBack, List.map_cons]
      rw [writeBack_notMem is ps _ i hnd.1]
      have hup : updateBuf b i p i = p := by simp [updateBuf]
      rw [hup, ih ps _ hnd.2 (by simpa using hlen)]

theorem writeBack_hist (idxes : List Coord) (pixels : List Rgba) (b : Buf)
    (coords : List Coord) (hnd : idxes.Nodup)
    (hperm : List.Perm pixels (idxes.map b))
    (hcs : coords.Nodup) (hsub : ∀ c ∈ idxes, c ∈ coords) :
    List.Perm (coords.map (writeBack idxes pixels b)) (coords.map b) := by
  have hlen : pixels.length = idxes.length := by
    simpa using hperm.length_eq
  set f := writeBack idxes pixels b with hf
  have hfilter : List.Perm (coords.filter (fun c => decide (c ∈ idxes))) idxes := by
    apply List.perm_of_nodup_nodup_toFinset_eq (hcs.filter _) hnd
    ext c
    simp only [List.mem_toFinset, List.mem_filter, decide_eq_true_eq]
    exact ⟨fun h => h.2, fun h => ⟨hsub c h, h⟩⟩
  have hsplit := List.filter_append_perm (fun c => decide (c ∈ idxes)) coords
  have houtside : (coords.filter (fun c => !decide (c ∈ idxes))).map f
      = (coords.filter (fun c => !decide (c ∈ idxes))).map b := by
    apply List.map_congr_left
    intro c hcmem
    rw [List.mem_filter] at hcmem
    apply writeBack_notMem
    simpa using hcmem.2
  have s1 : List.Perm (coords.map f)
      ((coords.filter (fun c => decide (c ∈ idxes))).map f ++
        (coords.filter (fun c => !decide (c ∈ idxes))).map f) := by
    rw [← List.map_append]
    exact (hsplit.map f).symm
  have s2 : List.Perm ((coords.filter (fun c => decide (c ∈ idxes))).map f) pixels := by
    have h1 : List.Perm ((coords.filter (fun c => decide (c ∈ idxes))).map f) (idxes.map f) :=
      hfilter.map f
    rw [map_writeBack idxes pixels b hnd hlen] at h1
    exact h1
  have s3 : List.Perm pixels ((coords.filter (fun c => decide (c ∈ idxes))).map b) :=
    hperm.trans (hfilter.map b).symm
  have s4 : List.Perm
      ((coords.filter (fun c => decide (c ∈ idxes))).map b ++
        (coords.filter (fun c => !decide (c ∈ idxes))).map b)
      (coords.map b) := by
    rw [← List.map_append]
    exact hsplit.map b
  refine s1.trans (List.Perm.trans ?_ s4)
  rw [houtside]
  exact List.Perm.append_right _ (s2.trans s3)

theorem processLine_notMem (cfg : Config) (key : Rgba → Nat) (snap : Buf)
    (idxes : List Coord) (b : Buf) (c : Coord) (hc : c ∉ idxes) :
    processLine cfg key snap idxes b c = b c :=
  writeBack_notMem idxes _ b c hc

theorem processLine_hist (cfg : Config) (key : Rgba → Nat) (snap : Buf)
    (idxes : List Coord) (b : Buf) (coords : List Coord)
    (hnd : idxes.Nodup) (hcs : coords.Nodup) (hsub : ∀ c ∈ idxes, c ∈ coords)
    (hagree : ∀ c ∈ idxes, b c = snap c) :
    List.Perm (coords.map (processLine cfg key snap idxes b)) (coords.map b) := by
  apply writeBack_hist _ _ _ _ hnd _ hcs hsub
  have hmap : idxes.map snap = idxes.map b :=
    List.map_congr_left (fun c h => (hagree c h).symm)
  exact (do_sort_perm cfg key (idxes.map snap)).trans (by rw [hmap])

theorem processLines_hist (cfg : Config) (key : Rgba → Nat) (snap : Buf)
    (lines : List (List Coord)) (coords : List Coord) (hcs : coords.Nodup) :
    ∀ b : Buf,
    (∀ ln ∈ lines, ln.Nodup) →
    (∀ ln ∈ lines, ∀ c ∈ ln, c ∈ coords) →
    List.Pairwise (fun l1 l2 => ∀ c ∈ l1, c ∉ l2) lines →
    (∀ ln ∈ lines, ∀ c ∈ ln, b c = snap c) →
    List.Perm (coords.map (processLines cfg key snap lines b)) (coords.map b) := by
  induction lines with
  | nil => intro b _ _ _ _; exact List.Perm.refl _
  | cons ln ls ih =>
    intro b hnd hsub hdisj hagree
    rw [processLines]
    have hstep : List.Perm (coords.map (processLine cfg key snap ln b)) (coords.map b) :=
      processLine_hist cfg key snap ln b coords
        (hnd ln (List.mem_cons_self ln ls)) hcs
        (hsub ln (List.mem_cons_self ln ls))
        (hagree ln (List.mem_cons_self ln ls))
    rw [List.pairwise_cons] at hdisj
    have hagree2 : ∀ ln2 ∈ ls, ∀ c ∈ ln2, processLine cfg key snap ln b c = snap c := by
      intro ln2 hln2 c hc
      have hnotln : c ∉ ln := fun hcln => hdisj.1 ln2 hln2 c hcln hc
      rw [processLine_notMem cfg key snap ln b c hnotln]
      exact hagree ln2 (List.mem_cons_of_mem ln hln2) c hc
    have hrec := ih (processLine cfg key snap ln b)
      (fun l2 h => hnd l2 (List.mem_cons_of_mem ln h))
      (fun l2 h => hsub l2 (List.mem_cons_of_mem ln h))
      hdisj.2 hagree2
    exact hrec.trans hstep

/-- C1 counterexample: the claim's final conjunct fails as a universal statement.
First input: a fully transparent black pixel under `mask_alpha = true` has
`key = minimum` and `invert = false` yet is not selected (the mask wins).
Second input: with `minimum = 175 > maximum = 100`, a pixel whose key equals
`minimum` is not selected either (the inclusive-range test is empty). -/
theorem C1_counterexample :
    (pixel_luma ⟨0, 0, 0, 0⟩ = (0 : Nat)
      ∧ selPred ⟨0, 255, .luma, false, false, false, true, 0, .linear⟩ pixel_luma ⟨0, 0, 0, 0⟩ = false)
  ∧ (pixel_luma ⟨200, 200, 200, 1⟩ = (175 : Nat)
      ∧ selPred ⟨175, 100, .luma, false, false, false, false, 0, .linear⟩ pixel_luma ⟨200, 200, 200, 1⟩ = false) := by
  constructor <;> constructor <;> decide

/-- C1 (amended): the selection predicate of `Config::do_sort` equals
`((key ∈ [minimum, maximum]) XOR invert) AND NOT (mask_alpha AND alpha = 0)`;
a pixel with alpha 0 is never selected when `mask_alpha` is on, regardless of
`minimum`, `maximum` and `invert`; and a pixel whose key equals `minimum` or
`maximum` is selected when `invert = false`, provided `minimum ≤ maximum` and
the pixel is not excluded by the alpha mask. -/
theorem C1_selection (cfg : Config) (key : Rgba → Nat) (p : Rgba) :
    (selPred cfg key p
      = (((decide (cfg.minimum ≤ key p ∧ key p ≤ cfg.maximum)).xor cfg.invert)
          && !(cfg.mask_alpha && decide (p.a = 0))))
  ∧ (cfg.mask_alpha = true → p.a = 0 → selPred cfg key p = false)
  ∧ (cfg.invert = false → cfg.minimum ≤ cfg.maximum →
      (key p = cfg.minimum ∨ key p = cfg.maximum) →
      (cfg.mask_alpha = false ∨ p.a ≠ 0) → selPred cfg key p = true) := by
  refine ⟨?_, ?_, ?_⟩
  · unfold selPred mask_fn
    by_cases ha : p.a = 0 <;> cases cfg.invert <;> cases cfg.mask_alpha <;>
      simp [ha, Bool.xor, Bool.decide_and]
  · intro hm ha
    unfold selPred mask_fn
    simp [hm, ha]
  · intro hi hle hkey hmask
    unfold selPred mask_fn
    have h1 : cfg.minimum ≤ key p := by rcases hkey with h | h <;> omega
    have h2 : key p ≤ cfg.maximum := by rcases hkey with h | h <;> omega
    rcases hmask with hm | ha
    · simp [hi, h1, h2, hm]
    · simp [hi, h1, h2, ha]

/-- C1 witness: boundary selection at a concrete configuration and pixel. -/
theorem C1_selection_witness :
    selPred ⟨0, 255, .luma, false, false, false, false, 0, .linear⟩ pixel_luma ⟨0, 0, 0, 7⟩ = true :=
  (C1_selection ⟨0, 255, .luma, false, false, false, false, 0, .linear⟩ pixel_luma ⟨0, 0, 0, 7⟩).2.2
    rfl (by decide) (Or.inl (by decide)) (Or.inl rfl)

/-- C5 counterexample: for the tied pixel (100, 100, 0) the code's `max_by_key`
picks the LAST maximal channel (G), giving hue 128, while the spec's first-found
tie-break picks R, giving hue 43. -/
theorem C5_counterexample :
    pixel_hue ⟨100, 100, 0, 255⟩ = 128 ∧ specHue ⟨100, 100, 0, 255⟩ = 43 ∧
      pixel_hue ⟨100, 100, 0, 255⟩ ≠ specHue ⟨100, 100, 0, 255⟩ := by
  refine ⟨by decide, by decide, by decide⟩

/-- C5 (amended): `pixel_hue` equals the spec's sector formula with the maximal
channel chosen by LAST-found tie-break in R, G, B order (B wins its ties, then G),
and any gray pixel (R = G = B) has hue 0. -/
theorem C5_hue (p : Rgba) :
    (pixel_hue p =
      if pixel_chroma p = 0 then 0
      else if p.r ≤ p.b ∧ p.g ≤ p.b then
        ((p.r : Int) - (p.g : Int)).natAbs / pixel_chroma p * 43 + 171
      else if p.r ≤ p.g then
        ((p.b : Int) - (p.r : Int)).natAbs / pixel_chroma p * 43 + 85
      else ((p.g : Int) - (p.b : Int)).natAbs / pixel_chroma p * 43)
  ∧ (p.r = p.g → p.g = p.b → pixel_hue p = 0) := by
  constructor
  · unfold pixel_hue maxByKeyLast
    rcases le_or_lt p.r p.g with h1 | h1 <;>
    rcases le_or_lt p.g p.b with h2 | h2 <;>
    rcases le_or_lt p.r p.b with h3 | h3 <;>
    simp [List.foldl, h1, h2, h3, Nat.not_le.2, Nat.le_of_lt] <;>
    omega
  · intro hrg hgb
    have hc : pixel_chroma p = 0 := by
      unfold pixel_chroma pixel_max pixel_min
      rw [hrg, hgb]
      simp
    unfold pixel_hue
    simp [hc]

/-- C5 witness: hue of a concrete gray pixel evaluates to 0 through the theorem. -/
theorem C5_hue_witness : pixel_hue ⟨7, 7, 7, 0⟩ = 0 :=
  (C5_hue ⟨7, 7, 7, 0⟩).2 rfl rfl

/-- C7 counterexample: the string "NaN" parses successfully to the f32 value NaN,
which fails both comparisons `ang >= 90.0` and `ang <= -90.0`, so `check_angle`
accepts it — yet NaN is not a number lying strictly between -90 and 90 (it is not
a finite value at all), refuting the claimed iff. -/
theorem C7_counterexample :
    check_angle (some F32.nan) = Except.ok ()
  ∧ (∀ q : Rat, F32.nan ≠ F32.finite q) :=
  ⟨rfl, fun _ h => F32.noConfusion h⟩

/-- C7 (amended): `check_angle` accepts exactly the inputs that parse to NaN or
to a finite value strictly between -90 and 90.  Parse failures, both infinities,
finite values outside the open interval and the boundary values ±90 are all
rejected before any pass runs; NaN, for which both rejection comparisons are
false, is (anomalously) accepted. -/
theorem C7_check_angle (o : Option F32) :
    check_angle o = Except.ok () ↔
      (o = some F32.nan ∨ ∃ a : Rat, o = some (F32.finite a) ∧ -90 < a ∧ a < 90) := by
  cases o with
  | none => simp [check_angle]
  | some ang =>
    cases ang with
    | nan => simp [check_angle, f32Ge90, f32LeNeg90]
    | inf => simp [check_angle, f32Ge90, f32LeNeg90]
    | negInf => simp [check_angle, f32Ge90, f32LeNeg90]
    | finite a =>
      simp only [check_angle, f32Ge90, f32LeNeg90]
      split
      · rename_i h
        rw [Bool.or_eq_true, decide_eq_true_eq, decide_eq_true_eq] at h
        constructor
        · intro hcontra
          exact absurd hcontra (by simp)
        · rintro (hn | ⟨x, hx, h1, h2⟩)
          · injection hn with hn
            exact F32.noConfusion hn
          · injection hx with hx
            injection hx with hx
            subst hx
            rcases h with h | h <;> linarith
      · rename_i h
        simp only [Bool.or_eq_true, decide_eq_true_eq, not_or] at h
        push_neg at h
        constructor
        · intro _
          exact Or.inr ⟨a, rfl, by linarith [h.2], by linarith [h.1]⟩
        · intro _
          rfl

/-- C7 witness: an interior value is accepted, the boundary values, an infinity
and a parse failure rejected, all through the theorem. -/
theorem C7_check_angle_witness :
    check_angle (some (F32.finite 45)) = Except.ok ()
    ∧ check_angle (some (F32.finite 90)) ≠ Except.ok ()
    ∧ check_angle (some (F32.finite (-90))) ≠ Except.ok ()
    ∧ check_angle (some F32.inf) ≠ Except.ok ()
    ∧ check_angle none ≠ Except.ok () := by
  refine ⟨(C7_check_angle (some (F32.finite 45))).mpr
      (Or.inr ⟨45, rfl, by norm_num, by norm_num⟩), ?_, ?_, ?_, ?_⟩
  · intro hcontra
    rcases (C7_check_angle (some (F32.finite 90))).mp hcontra with hn | ⟨x, hx, h1, h2⟩
    · injection hn with hn
      exact F32.noConfusion hn
    · injection hx with hx
      injection hx with hx
      subst hx
      linarith
  · intro hcontra
    rcases (C7_check_angle (some (F32.finite (-90)))).mp hcontra with hn | ⟨x, hx, h1, h2⟩
    · injection hn with hn
      exact F32.noConfusion hn
    · injection hx with hx
      injection hx with hx
      subst hx
      linarith
  · intro hcontra
    rcases (C7_check_angle (some F32.inf)).mp hcontra with hn | ⟨x, hx, _⟩
    · injection hn with hn
      exact F32.noConfusion hn
    · injection hx with hx
      exact F32.noConfusion hx
  · intro hcontra
    rcases (C7_check_angle none).mp hcontra with hn | ⟨x, hx, _⟩
    · exact Option.noConfusion hn
    · exact Option.noConfusion hx

/-- C9: the Saturation key is 1 exactly when the minimum channel is 0 and the
maximum channel is positive, and 0 in every other case; in particular it only
ever takes the two values 0 and 1. -/
theorem C9_saturation (p : Rgba) :
    (pixel_saturation p = if pixel_min p = 0 ∧ 0 < pixel_max p then 1 else 0)
  ∧ (pixel_saturation p = 0 ∨ pixel_saturation p = 1) := by
  have hminmax : pixel_min p ≤ pixel_max p := by
    unfold pixel_min pixel_max
    exact le_trans (Nat.min_le_left _ _) (Nat.le_max_left _ _)
  have hmain : pixel_saturation p = if pixel_min p = 0 ∧ 0 < pixel_max p then 1 else 0 := by
    unfold pixel_saturation pixel_chroma
    cases hv : pixel_max p with
    | zero => simp
    | succ v =>
      by_cases hm : pixel_min p = 0
      · rw [hm]
        simp [Nat.div_self]
      · have hlt : v + 1 - pixel_min p < v + 1 := by omega
        rw [if_neg (by simp [hm])]
        exact Nat.div_eq_of_lt hlt
  refine ⟨hmain, ?_⟩
  rw [hmain]
  split <;> simp

/-- C10: `do_sort` terminates because the two `take_while` predicates are exact
negations of each other: whenever the remaining slice is nonempty, the selected
run plus the following skipped run covers at least one pixel, so the loop counter
strictly increases until the slice is exhausted. -/
theorem C10_termination :
    (∀ (cfg : Config) (key : Rgba → Nat) (p : Rgba),
      skipPred cfg key p = !(selPred cfg key p))
  ∧ (∀ (cfg : Config) (key : Rgba → Nat) (l : List Rgba), l ≠ [] →
      1 ≤ (l.takeWhile (selPred cfg key)).length
            + ((l.drop (l.takeWhile (selPred cfg key)).length).takeWhile (skipPred cfg key)).length)
  ∧ (∀ (cfg : Config) (key : Rgba → Nat) (l : List Rgba), l ≠ [] →
      ((l.drop (l.takeWhile (selPred cfg key)).length).drop
          ((l.drop (l.takeWhile (selPred cfg key)).length).takeWhile (skipPred cfg key)).length).length
        < l.length) := by
  have hprog : ∀ (cfg : Config) (key : Rgba → Nat) (l : List Rgba), l ≠ [] →
      1 ≤ (l.takeWhile (selPred cfg key)).length
            + ((l.drop (l.takeWhile (selPred cfg key)).length).takeWhile (skipPred cfg key)).length := by
    intro cfg key l hl
    cases l with
    | nil => exact absurd rfl hl
    | cons p rest =>
      by_cases hs : selPred cfg key p = true
      · have : ((p :: rest).takeWhile (selPred cfg key)).length ≥ 1 := by
          simp [List.takeWhile_cons, hs]
        omega
      · have hg : ((p :: rest).takeWhile (selPred cfg key)).length = 0 := by
          simp [List.takeWhile_cons, hs]
        have hsk : skipPred cfg key p = true := by
          rw [skipPred_eq_not_selPred]
          simp [Bool.eq_false_iff.2 hs]
        have : (((p :: rest).drop 0).takeWhile (skipPred cfg key)).length ≥ 1 := by
          simp [List.takeWhile_cons, hsk]
        simp only [hg]
        omega
  refine ⟨fun cfg key p => skipPred_eq_not_selPred cfg key p, hprog, ?_⟩
  intro cfg key l hl
  have h1 := hprog cfg key l hl
  have h2 : (l.takeWhile (selPred cfg key)).length ≤ l.length := by
    simpa using (List.takeWhile_sublist (selPred cfg key)).length_le
  simp only [List.length_drop]
  have hlpos : 1 ≤ l.length := by
    cases l with
    | nil => exact absurd rfl hl
    | cons p rest => simp
  omega

/-- C10 witness: the run-length progress facts at a concrete one-pixel slice. -/
theorem C10_termination_witness :
    1 ≤ (([⟨1, 2, 3, 4⟩] : List Rgba).takeWhile
          (selPred ⟨0, 255, .luma, false, false, false, false, 0, .linear⟩ pixel_luma)).length
          + ((([⟨1, 2, 3, 4⟩] : List Rgba).drop
              (([⟨1, 2, 3, 4⟩] : List Rgba).takeWhile
                (selPred ⟨0, 255, .luma, false, false, false, false, 0, .linear⟩ pixel_luma)).length).takeWhile
              (skipPred ⟨0, 255, .luma, false, false, false, false, 0, .linear⟩ pixel_luma)).length :=
  C10_termination.2.1 ⟨0, 255, .luma, false, false, false, false, 0, .linear⟩ pixel_luma
    [⟨1, 2, 3, 4⟩] (by decide)

theorem dedup_cons_eq_cons {α : Type} [DecidableEq α] (a : α) (l : List α) :
    ∃ t : List α, dedup (a :: l) = a :: t := by
  induction l generalizing a with
  | nil => exact ⟨[], by simp [dedup]⟩
  | cons b r ih =>
    by_cases h : a = b
    · rw [dedup, if_pos h]
      exact ih a
    · rw [dedup, if_neg h]
      exact ⟨dedup (b :: r), rfl⟩

theorem dedup_sublist {α : Type} [DecidableEq α] (l : List α) : (dedup l).Sublist l := by
  induction l using dedup.induct with
  | case1 => simp [dedup]
  | case2 x => simp [dedup]
  | case3 y rest ih =>
    rw [dedup, if_pos rfl]
    exact ih.trans ((List.sublist_cons_self y rest).cons_cons y)
  | case4 x y rest h ih =>
    rw [dedup, if_neg h]
    exact ih.cons_cons x

theorem dedup_chain_ne {α : Type} [DecidableEq α] (l : List α) :
    List.Chain' (fun u v => u ≠ v) (dedup l) := by
  induction l using dedup.induct with
  | case1 => simp [dedup]
  | case2 x => simp [dedup]
  | case3 y rest ih =>
    rw [dedup, if_pos rfl]
    exact ih
  | case4 x y rest h ih =>
    rw [dedup, if_neg h]
    rcases dedup_cons_eq_cons y rest with ⟨t, ht⟩
    rw [ht]
    rw [ht] at ih
    exact List.Chain'.cons h ih

theorem mem_dedup {α : Type} [DecidableEq α] (c : α) (l : List α) :
    c ∈ dedup l ↔ c ∈ l := by
  induction l using dedup.induct with
  | case1 => simp [dedup]
  | case2 x => simp [dedup]
  | case3 y rest ih =>
    rw [dedup, if_pos rfl]
    rw [ih]
    simp
  | case4 x y rest h ih =>
    rw [dedup, if_neg h]
    simp [ih]

theorem rangeZ_mem (a b row : Int) : row ∈ rangeZ a b ↔ a ≤ row ∧ row < b := by
  unfold rangeZ
  simp only [List.mem_map, List.mem_range, Int.ofNat_eq_natCast]
  constructor
  · rintro ⟨i, hi, hrow⟩
    omega
  · rintro ⟨h1, h2⟩
    exact ⟨(row - a).toNat, by omega, by omega⟩

theorem clipFloor_bounds (w h : Nat) (pts : List (Rat × Rat)) (c : Coord)
    (hc : c ∈ clipFloor w h pts) : c.1 < w ∧ c.2 < h := by
  unfold clipFloor at hc
  rw [List.mem_filterMap] at hc
  rcases hc with ⟨pt, _, hpt⟩
  split at hpt
  · rename_i hcond
    rcases hcond with ⟨hx0, hxw, hy0, hyh⟩
    injection hpt with hpt
    subst hpt
    have h1 : 0 ≤ ⌊pt.1⌋ := Int.floor_nonneg.2 hx0
    have h2 : ⌊pt.1⌋ < (w : Int) := Int.floor_lt.2 (by exact_mod_cast hxw)
    have h3 : 0 ≤ ⌊pt.2⌋ := Int.floor_nonneg.2 hy0
    have h4 : ⌊pt.2⌋ < (h : Int) := Int.floor_lt.2 (by exact_mod_cast hyh)
    constructor <;> simp only [] <;> omega
  · exact absurd hpt (by simp)

theorem linearIdxes_mem (tan : Rat) (row : Int) (w h : Nat) (x y : Nat) :
    ((x, y) : Coord) ∈ linearIdxes tan row w h ↔
      x < w ∧ y = ratToU32 ((x : Rat) * tan + (row : Rat)) ∧ 0 < y ∧ y < h := by
  unfold linearIdxes
  rw [List.mem_filter]
  simp only [List.mem_map, List.mem_range, decide_eq_true_eq, Bool.and_eq_true]
  constructor
  · rintro ⟨⟨x', hx', heq⟩, h1, h2⟩
    injection heq with e1 e2
    subst e1
    exact ⟨hx', e2.symm, h1, h2⟩
  · rintro ⟨hxw, hy, h1, h2⟩
    exact ⟨⟨x, hxw, by rw [hy]⟩, h1, h2⟩

theorem rowLine_length (w y : Nat) : (rowLine w y).length = w := by
  simp [rowLine]

theorem chunksList_flatten {α : Type} (w' : Nat) (L : List (List α))
    (hlen : ∀ l ∈ L, l.length = w' + 1) : chunksList w' L.flatten = L := by
  induction L with
  | nil => rw [List.flatten_nil, chunksList]
  | cons l ls ih =>
    have hl : l.length = w' + 1 := hlen l (List.mem_cons_self l ls)
    cases l with
    | nil => simp at hl
    | cons a l' =>
      rw [List.flatten_cons, List.cons_append, chunksList, ← List.cons_append]
      rw [List.take_left' hl, List.drop_left' hl]
      rw [ih (fun l2 h2 => hlen l2 (List.mem_cons_of_mem _ h2))]

/-- C3 counterexample: with the DEFAULT configuration (Linear path, angle 0) and
a zero-width image, `Config::sort` takes the Linear angle-0 branch and calls
`chunks_mut(0)`, which panics unconditionally ("chunk size must be non-zero"),
even on the empty pixel slice — so the claimed panic-freedom fails for the
zero-width image. -/
theorem C3_counterexample :
    sortBranch ⟨0, 255, .luma, false, false, false, false, 0, .linear⟩
      = some PathBranch.linearStraight
  ∧ chunksMut 0 (allCoords 0 5) = none := by
  constructor
  · rfl
  · rfl

/-- C3 (amended): every coordinate produced by any of the path branches lies
inside the image rectangle (the angled-Linear filter also enforces y > 0); for a
valid configuration (concrete shape, concrete heuristic) neither `unreachable!`
arm of `Config::sort` or `Heuristic::func` is reached; and for every image of
POSITIVE width, the `chunks_mut(w)` call of the Linear angle-0 branch does not
panic and yields exactly the image rows.  (With width 0 that call panics; see
the counterexample.) -/
theorem C3_totality :
    (∀ (w h y : Nat) (c : Coord), y < h → c ∈ rowLine w y → c.1 < w ∧ c.2 < h)
  ∧ (∀ (tan : Rat) (row : Int) (w h : Nat) (c : Coord),
      c ∈ linearIdxes tan row w h → c.1 < w ∧ 0 < c.2 ∧ c.2 < h)
  ∧ (∀ (w h : Nat) (pts : List (Rat × Rat)) (c : Coord),
      c ∈ clipFloor w h pts → c.1 < w ∧ c.2 < h)
  ∧ (∀ (w h : Nat) (samples : List (Rat × Rat)) (c : Coord),
      c ∈ ellipseShellLine w h samples → c.1 < w ∧ c.2 < h)
  ∧ (∀ cfg : Config, cfg.path ≠ Shape.nonexhaustive → (sortBranch cfg).isSome = true)
  ∧ (∀ hk : Heuristic, hk ≠ Heuristic.nonexhaustive → (Heuristic.func hk).isSome = true)
  ∧ (∀ (w h : Nat), 0 < w → chunksMut w (allCoords w h) = some (rowLines w h)) := by
  refine ⟨?_, ?_, ?_, ?_, ?_, ?_, ?_⟩
  · intro w h y c hy hc
    unfold rowLine at hc
    rcases List.mem_map.1 hc with ⟨x, hx, rfl⟩
    exact ⟨List.mem_range.1 hx, hy⟩
  · intro tan row w h c hc
    rcases c with ⟨x, y⟩
    exact ((linearIdxes_mem tan row w h x y).1 hc).imp id (fun h2 => ⟨h2.2.1, h2.2.2⟩)
  · exact clipFloor_bounds
  · intro w h samples c hc
    exact clipFloor_bounds w h samples c ((mem_dedup c _).1 hc)
  · intro cfg hpath
    unfold sortBranch
    split
    · rfl
    · rfl
    · split <;> rfl
    · rename_i hcase
      exact absurd hcase hpath
  · intro hk hker
    cases hk <;> first | rfl | exact absurd rfl hker
  · intro w h hw
    cases w with
    | zero => exact absurd hw (lt_irrefl 0)
    | succ w' =>
      show some (chunksList w' (allCoords (w' + 1) h)) = some (rowLines (w' + 1) h)
      unfold allCoords
      rw [chunksList_flatten w' (rowLines (w' + 1) h) ?hrows]
      case hrows =>
        intro l hl
        unfold rowLines at hl
        rcases List.mem_map.1 hl with ⟨y, _, rfl⟩
        exact rowLine_length (w' + 1) y

/-- C3 witness: bounds at concrete coordinates of each generator, concrete
dispatches, and a concrete positive-width chunking. -/
theorem C3_totality_witness :
    (((0, 1) : Coord).1 < 2 ∧ 0 < ((0, 1) : Coord).2 ∧ ((0, 1) : Coord).2 < 3)
  ∧ (((0, 0) : Coord).1 < 2 ∧ ((0, 0) : Coord).2 < 2)
  ∧ ((sortBranch ⟨0, 255, .luma, false, false, false, false, 0, .linear⟩).isSome = true)
  ∧ ((Heuristic.func .hue).isSome = true)
  ∧ chunksMut 2 (allCoords 2 2) = some (rowLines 2 2) := by
  refine ⟨?_, ?_, ?_, ?_, ?_⟩
  · exact C3_totality.2.1 (7/10) 1 2 3 (0, 1)
      (by norm_num [linearIdxes, ratToU32, List.range_succ])
  · exact C3_totality.2.2.1 2 2 [(1/2, 1/2)] (0, 0)
      (by norm_num [clipFloor])
  · exact C3_totality.2.2.2.2.1 ⟨0, 255, .luma, false, false, false, false, 0, .linear⟩
      (by intro hcontra; cases hcontra)
  · exact C3_totality.2.2.2.2.2.1 .hue (by intro hcontra; cases hcontra)
  · exact C3_totality.2.2.2.2.2.2 2 2 (by decide)

/-- C4 counterexample: with `tan = 7/10`, `row_idx = 1`, `w = 2`, `h = 3` the code
keeps (1, 1) (truncating 1.7 to 1) while the spec's rounding keeps (1, 2). -/
theorem C4_counterexample :
    linearIdxes (7/10) 1 2 3 = [(0, 1), (1, 1)]
  ∧ specLinearIdxes (7/10) 1 2 3 = [(0, 1), (1, 2)]
  ∧ linearIdxes (7/10) 1 2 3 ≠ specLinearIdxes (7/10) 1 2 3 := by
  have h1 : linearIdxes (7/10) 1 2 3 = [(0, 1), (1, 1)] := by
    norm_num [linearIdxes, ratToU32, List.range_succ]
  have h2 : specLinearIdxes (7/10) 1 2 3 = [(0, 1), (1, 2)] := by
    norm_num [specLinearIdxes, List.range_succ, round_eq]
    decide
  refine ⟨h1, h2, ?_⟩
  rw [h1, h2]
  decide

/-- C4 (amended): the `row_idx` range is exactly as claimed, and the scan line
keeps `(x, y)` for `x ∈ [0, w)` exactly when `0 < y < h`, where y is obtained by
TRUNCATION toward zero of `x*tan + row_idx` (the `as u32` cast: floor for
nonnegative arguments, 0 — subsequently discarded — for negative ones), not by
rounding. -/
theorem C4_linear_angled :
    (∀ (tan : Rat) (w h : Nat) (row : Int),
      row ∈ linearRange tan w h ↔
        (if 0 < extra_height tan w then
            -(extra_height tan w) ≤ row ∧ row < (h : Int)
          else 0 ≤ row ∧ row < (h : Int) - extra_height tan w))
  ∧ (∀ (tan : Rat) (row : Int) (w h : Nat) (x y : Nat),
      ((x, y) : Coord) ∈ linearIdxes tan row w h ↔
        (x < w ∧ y = ratToU32 ((x : Rat) * tan + (row : Rat)) ∧ 0 < y ∧ y < h))
  ∧ (∀ q : Rat, 0 ≤ q → (ratToU32 q : Int) = ⌊q⌋)
  ∧ (∀ q : Rat, q < 0 → ratToU32 q = 0) := by
  refine ⟨?_, linearIdxes_mem, ?_, ?_⟩
  · intro tan w h row
    unfold linearRange
    split <;> rw [rangeZ_mem]
  · intro q hq
    unfold ratToU32
    rw [if_neg (by exact not_lt.2 hq)]
    exact Int.toNat_of_nonneg (Int.floor_nonneg.2 hq)
  · intro q hq
    unfold ratToU32
    rw [if_pos hq]

/-- C4 witness: the range and truncation facts at concrete inputs. -/
theorem C4_linear_angled_witness :
    ((1 : Int) ∈ linearRange 1 2 3 ↔
      (if 0 < extra_height 1 2 then -(extra_height 1 2) ≤ 1 ∧ (1 : Int) < (3 : Nat)
        else 0 ≤ (1 : Int) ∧ (1 : Int) < ((3 : Nat) : Int) - extra_height 1 2))
  ∧ ((ratToU32 (17/10) : Int) = ⌊(17/10 : Rat)⌋)
  ∧ (ratToU32 (-(3/2)) = 0) := by
  refine ⟨C4_linear_angled.1 1 2 3 1, ?_, ?_⟩
  · exact C4_linear_angled.2.2.1 (17/10) (by norm_num)
  · exact C4_linear_angled.2.2.2 (-(3/2)) (by norm_num)

/-- C6 counterexample: a shell whose samples leave a pixel and return to it.  The
three samples floor to (0,0), (1,0), (0,0); `Vec::dedup` removes only consecutive
repeats, so (0,0) still occurs twice in the generated scan line. -/
theorem C6_counterexample :
    ellipseShellLine 2 2 [(1/2, 1/2), (3/2, 1/2), (1/2, 1/2)] = [(0, 0), (1, 0), (0, 0)]
  ∧ List.count ((0, 0) : Coord)
      (ellipseShellLine 2 2 [(1/2, 1/2), (3/2, 1/2), (1/2, 1/2)]) = 2 := by
  have hclip : clipFloor 2 2 [(1/2, 1/2), (3/2, 1/2), (1/2, 1/2)]
      = [(0, 0), (1, 0), (0, 0)] := by
    simp only [clipFloor, List.filterMap_cons, List.filterMap_nil]
    norm_num
  have hdedup : dedup [((0 : Nat), (0 : Nat)), (1, 0), (0, 0)] = [(0, 0), (1, 0), (0, 0)] := by
    simp [dedup]
    decide
  have hline : ellipseShellLine 2 2 [(1/2, 1/2), (3/2, 1/2), (1/2, 1/2)]
      = [(0, 0), (1, 0), (0, 0)] := by
    unfold ellipseShellLine
    rw [hclip, hdedup]
  exact ⟨hline, by rw [hline]; decide⟩

/-- C6 (amended): the `dedup` step collapses each run of CONSECUTIVE identical
floored coordinates to a single entry — the generated shell line has no two
adjacent equal coordinates, is a subsequence of the clipped sample sequence, and
visits exactly the same set of pixels; a coordinate may still occur more than
once non-adjacently. -/
theorem C6_ellipse_dedup (w h : Nat) (samples : List (Rat × Rat)) :
    List.Chain' (fun u v => u ≠ v) (ellipseShellLine w h samples)
  ∧ (ellipseShellLine w h samples).Sublist (clipFloor w h samples)
  ∧ (∀ c : Coord, c ∈ ellipseShellLine w h samples ↔ c ∈ clipFloor w h samples) :=
  ⟨dedup_chain_ne _, dedup_sublist _, fun c => mem_dedup c _⟩

theorem rowLine_mem (w y : Nat) (c : Coord) : c ∈ rowLine w y ↔ c.1 < w ∧ c.2 = y := by
  unfold rowLine
  rw [List.mem_map]
  constructor
  · rintro ⟨x, hx, rfl⟩
    exact ⟨List.mem_range.1 hx, rfl⟩
  · rintro ⟨h1, h2⟩
    exact ⟨c.1, List.mem_range.2 h1, by rw [← h2]⟩

theorem rowLine_nodup (w y : Nat) : (rowLine w y).Nodup := by
  unfold rowLine
  refine List.Nodup.map ?_ (List.nodup_range w)
  intro a b hab
  injection hab

theorem rowLines_pairwise_disjoint (w h : Nat) :
    List.Pairwise (fun l1 l2 => ∀ c ∈ l1, c ∉ l2) (rowLines w h) := by
  unfold rowLines
  refine List.Pairwise.map _ ?_ (List.pairwise_lt_range h)
  intro y1 y2 hy c hc1 hc2
  rw [rowLine_mem] at hc1 hc2
  omega

theorem mem_allCoords (w h : Nat) (c : Coord) : c ∈ allCoords w h ↔ c.1 < w ∧ c.2 < h := by
  unfold allCoords rowLines
  rw [List.mem_flatten]
  constructor
  · rintro ⟨l, hl, hcl⟩
    rcases List.mem_map.1 hl with ⟨y, hy, rfl⟩
    rcases (rowLine_mem w y c).1 hcl with ⟨h1, h2⟩
    exact ⟨h1, h2 ▸ List.mem_range.1 hy⟩
  · rintro ⟨h1, h2⟩
    exact ⟨rowLine w c.2, List.mem_map.2 ⟨c.2, List.mem_range.2 h2, rfl⟩,
      (rowLine_mem w c.2 c).2 ⟨h1, rfl⟩⟩

theorem allCoords_nodup (w h : Nat) : (allCoords w h).Nodup := by
  unfold allCoords
  rw [List.nodup_flatten]
  constructor
  · intro l hl
    rcases List.mem_map.1 hl with ⟨y, _, rfl⟩
    exact rowLine_nodup w y
  · refine (rowLines_pairwise_disjoint w h).imp ?_
    intro l1 l2 hdis
    intro c hc1 hc2
    exact hdis c hc1 hc2

/-- C2 counterexample: two overlapping scan lines (as the Sine and Ellipse paths
can produce, reading from the frozen snapshot but overwriting each other's
output) change the whole-image histogram: reading keys [2,1] and [1,0] from the
snapshot and sorting ascending yields final values [1,0,1] — the value 2 is lost
and 1 duplicated — so per-scan-line permutation does not imply whole-image
histogram invariance, refuting the claim's asserted equivalence. -/
theorem C2_counterexample :
    histogram
        (processLines ⟨0, 255, .red, false, false, false, false, 0, .linear⟩ (fun p => p.r)
          (fun c => if c = ((0 : Nat), (0 : Nat)) then ⟨2, 0, 0, 1⟩
            else if c = ((1 : Nat), (0 : Nat)) then ⟨1, 0, 0, 1⟩ else ⟨0, 0, 0, 1⟩)
          [[(0, 0), (1, 0)], [(1, 0), (2, 0)]]
          (fun c => if c = ((0 : Nat), (0 : Nat)) then ⟨2, 0, 0, 1⟩
            else if c = ((1 : Nat), (0 : Nat)) then ⟨1, 0, 0, 1⟩ else ⟨0, 0, 0, 1⟩))
        [(0, 0), (1, 0), (2, 0)]
    ≠ histogram
        (fun c => if c = ((0 : Nat), (0 : Nat)) then ⟨2, 0, 0, 1⟩
          else if c = ((1 : Nat), (0 : Nat)) then ⟨1, 0, 0, 1⟩ else ⟨0, 0, 0, 1⟩)
        [(0, 0), (1, 0), (2, 0)] := by
  have h1 : do_sort ⟨0, 255, .red, false, false, false, false, 0, .linear⟩ (fun p => p.r)
      [⟨2, 0, 0, 1⟩, ⟨1, 0, 0, 1⟩] = [⟨1, 0, 0, 1⟩, ⟨2, 0, 0, 1⟩] := by
    rw [do_sort]
    norm_num [selPred, skipPred, mask_fn, List.takeWhile, List.insertionSort, List.orderedInsert,
      sortLe]
    rw [do_sort]
  have h2 : do_sort ⟨0, 255, .red, false, false, false, false, 0, .linear⟩ (fun p => p.r)
      [⟨1, 0, 0, 1⟩, ⟨0, 0, 0, 1⟩] = [⟨0, 0, 0, 1⟩, ⟨1, 0, 0, 1⟩] := by
    rw [do_sort]
    norm_num [selPred, skipPred, mask_fn, List.takeWhile, List.insertionSort, List.orderedInsert,
      sortLe]
    rw [do_sort]
  simp only [processLines, processLine, List.map_cons, List.map_nil]
  norm_num [h1, h2]
  decide

/-- C2 (amended): per scan line, `do_sort` permutes the pixel values read at the
line's coordinates (never creating, destroying or duplicating values); the
whole-image histogram is invariant whenever the generated scan lines are
pairwise disjoint duplicate-free coordinate lists — in particular for the Linear
angle-0 row decomposition — but overlapping scan lines (possible for Sine and
Ellipse paths) need not preserve it. -/
theorem C2_histogram :
    (∀ (cfg : Config) (key : Rgba → Nat) (l : List Rgba),
        List.Perm (do_sort cfg key l) l)
  ∧ (∀ (cfg : Config) (key : Rgba → Nat) (snap : Buf) (lines : List (List Coord))
        (coords : List Coord),
        coords.Nodup →
        (∀ ln ∈ lines, ln.Nodup) →
        (∀ ln ∈ lines, ∀ c ∈ ln, c ∈ coords) →
        List.Pairwise (fun l1 l2 => ∀ c ∈ l1, c ∉ l2) lines →
        histogram (processLines cfg key snap lines snap) coords = histogram snap coords)
  ∧ (∀ (cfg : Config) (key : Rgba → Nat) (snap : Buf) (w h : Nat),
        histogram (processLines cfg key snap (rowLines w h) snap) (allCoords w h)
          = histogram snap (allCoords w h)) := by
  have hmain : ∀ (cfg : Config) (key : Rgba → Nat) (snap : Buf) (lines : List (List Coord))
      (coords : List Coord),
      coords.Nodup →
      (∀ ln ∈ lines, ln.Nodup) →
      (∀ ln ∈ lines, ∀ c ∈ ln, c ∈ coords) →
      List.Pairwise (fun l1 l2 => ∀ c ∈ l1, c ∉ l2) lines →
      histogram (processLines cfg key snap lines snap) coords = histogram snap coords := by
    intro cfg key snap lines coords hcs hnd hsub hdisj
    unfold histogram
    rw [Multiset.coe_eq_coe]
    exact processLines_hist cfg key snap lines coords hcs snap hnd hsub hdisj
      (fun _ _ _ _ => rfl)
  refine ⟨do_sort_perm, hmain, ?_⟩
  intro cfg key snap w h
  apply hmain
  · exact allCoords_nodup w h
  · intro ln hln
    rcases List.mem_map.1 hln with ⟨y, _, rfl⟩
    exact rowLine_nodup w y
  · intro ln hln c hc
    unfold rowLines at hln
    rcases List.mem_map.1 hln with ⟨y, hy, rfl⟩
    rcases (rowLine_mem w y c).1 hc with ⟨h1, h2⟩
    exact (mem_allCoords w h c).2 ⟨h1, h2 ▸ List.mem_range.1 hy⟩
  · exact rowLines_pairwise_disjoint w h

/-- C2 witness: the disjoint-lines histogram invariance at a concrete image. -/
theorem C2_histogram_witness :
    histogram
        (processLines ⟨0, 255, .red, false, false, false, false, 0, .linear⟩ (fun p => p.r)
          (fun c => ⟨c.1, c.2, 0, 1⟩) [[(0, 0), (1, 0)]] (fun c => ⟨c.1, c.2, 0, 1⟩))
        [(0, 0), (1, 0)]
      = histogram (fun c => ⟨c.1, c.2, 0, 1⟩) [(0, 0), (1, 0)] :=
  C2_histogram.2.1 ⟨0, 255, .red, false, false, false, false, 0, .linear⟩ (fun p => p.r)
    (fun c => ⟨c.1, c.2, 0, 1⟩) [[(0, 0), (1, 0)]] [(0, 0), (1, 0)]
    (by decide) (by decide) (by decide) (by decide)

theorem splitOnCh_ne_nil (sep : Char) (l : List Char) : splitOnCh sep l ≠ [] := by
  cases l with
  | nil => simp [splitOnCh]
  | cons c rest =>
    rw [splitOnCh]
    cases hs : splitOnCh sep rest with
    | nil => simp
    | cons h t => by_cases hc : c = sep <;> simp [hc]

theorem splitOnCh_cons (sep c : Char) (rest : List Char) :
    splitOnCh sep (c :: rest) =
      if c = sep then [] :: splitOnCh sep rest
      else (c :: (splitOnCh sep rest).headD []) :: (splitOnCh sep rest).tail := by
  rw [splitOnCh]
  cases hs : splitOnCh sep rest with
  | nil => exact absurd hs (splitOnCh_ne_nil sep rest)
  | cons hd t => by_cases hc : c = sep <;> simp [hc]

theorem splitOnCh_single (sep : Char) (l x : List Char)
    (h : splitOnCh sep l = [x]) : l = x := by
  induction l generalizing x with
  | nil =>
    simp [splitOnCh] at h
    exact h.symm
  | cons c rest ih =>
    rw [splitOnCh_cons] at h
    by_cases hc : c = sep
    · rw [if_pos hc] at h
      simp only [List.cons.injEq] at h
      exact absurd h.2 (splitOnCh_ne_nil sep rest)
    · rw [if_neg hc] at h
      simp only [List.cons.injEq] at h
      cases hs : splitOnCh sep rest with
      | nil => exact absurd hs (splitOnCh_ne_nil sep rest)
      | cons s0 t =>
        rw [hs] at h
        have ht : t = [] := by simpa using h.2
        subst ht
        have hrest : rest = s0 := ih s0 (by rw [hs])
        rw [← h.1]
        simp [hrest]

theorem splitOnCh_pair (sep : Char) (l x y : List Char)
    (h : splitOnCh sep l = [x, y]) : l = x ++ sep :: y := by
  induction l generalizing x y with
  | nil => simp [splitOnCh] at h
  | cons c rest ih =>
    rw [splitOnCh_cons] at h
    by_cases hc : c = sep
    · rw [if_pos hc] at h
      simp only [List.cons.injEq] at h
      have hx : x = [] := h.1.symm
      have hrest : rest = y := splitOnCh_single sep rest y h.2
      subst hx hrest hc
      rfl
    · rw [if_neg hc] at h
      simp only [List.cons.injEq] at h
      cases hs : splitOnCh sep rest with
      | nil => exact absurd hs (splitOnCh_ne_nil sep rest)
      | cons s0 t =>
        rw [hs] at h
        have hx : x = c :: s0 := by simpa using h.1.symm
        have ht : t = [y] := by simpa using h.2
        have hrest : rest = s0 ++ sep :: y := ih s0 y (by rw [hs, ht])
        subst hx
        rw [hrest]
        rfl

theorem splitOnCh_nosep (sep : Char) (l : List Char)
    (h : ∀ c ∈ l, c ≠ sep) : splitOnCh sep l = [l] := by
  induction l with
  | nil => rfl
  | cons c rest ih =>
    rw [splitOnCh_cons, if_neg (h c (List.mem_cons_self c rest))]
    rw [ih (fun c hc => h c (List.mem_cons_of_mem _ hc))]
    rfl

theorem splitOnCh_append (sep : Char) (l1 l2 : List Char)
    (h : ∀ c ∈ l1, c ≠ sep) :
    splitOnCh sep (l1 ++ sep :: l2) = l1 :: splitOnCh sep l2 := by
  induction l1 with
  | nil =>
    simp only [List.nil_append]
    rw [splitOnCh_cons, if_pos rfl]
  | cons c rest ih =>
    simp only [List.cons_append]
    rw [splitOnCh_cons, if_neg (h c (List.mem_cons_self c rest))]
    rw [ih (fun c hc => h c (List.mem_cons_of_mem _ hc))]
    rfl

theorem parseNum_nonempty (l : List Char) (v : Rat) (h : parseNum l = some v) : l ≠ [] := by
  intro hl
  subst hl
  simp [parseNum, splitOnCh] at h

theorem parseNum_chars (l : List Char) (v : Rat) (h : parseNum l = some v) :
    ∀ c ∈ l, (c.isDigit = true ∨ c = '-' ∨ c = '+' ∨ c = '.') := by
  unfold parseNum at h
  set body : List Char :=
    if l.head? = some '-' ∨ l.head? = some '+' then l.tail else l with hbody
  have hbodychars : (∀ c ∈ body, (c.isDigit = true ∨ c = '.')) →
      ∀ c ∈ l, (c.isDigit = true ∨ c = '-' ∨ c = '+' ∨ c = '.') := by
    intro hb c hc
    rw [hbody] at hb
    split at hb
    · rename_i hsgn
      cases l with
      | nil => simp at hc
      | cons c0 rest =>
        rcases List.mem_cons.1 hc with rfl | hcr
        · rcases hsgn with hs | hs <;> simp at hs <;> subst hs <;> simp
        · rcases hb c hcr with hd | hd
          · exact Or.inl hd
          · exact Or.inr (Or.inr (Or.inr hd))
    · rcases hb c hc with hd | hd
      · exact Or.inl hd
      · exact Or.inr (Or.inr (Or.inr hd))
  apply hbodychars
  cases hsp : splitOnCh '.' body with
  | nil => exact absurd hsp (splitOnCh_ne_nil _ _)
  | cons p0 parts =>
    rw [hsp] at h
    cases parts with
    | nil =>
      split at h
      · rename_i x ip heq
        injection heq with hip _
        subst hip
        split at h
        · rename_i hcond
          have hb : body = p0 := splitOnCh_single '.' body p0 hsp
          intro c hc
          rw [hb] at hc
          exact Or.inl (by simpa using List.all_eq_true.1 hcond.2 c hc)
        · exact absurd h (by simp)
      · rename_i x ip fp heq
        simp at heq
      · rename_i x hn1 hn2
        exact (hn1 p0 rfl).elim
    | cons p1 parts2 =>
      cases parts2 with
      | nil =>
        split at h
        · rename_i x ip heq
          simp at heq
        · rename_i x ip fp heq
          injection heq with hip heq2
          injection heq2 with hfp _
          subst hip hfp
          split at h
          · rename_i hcond
            have hb : body = p0 ++ '.' :: p1 := splitOnCh_pair '.' body p0 p1 hsp
            intro c hc
            rw [hb] at hc
            rcases List.mem_append.1 hc with hc0 | hc1
            · exact Or.inl (by simpa using List.all_eq_true.1 hcond.2.1 c hc0)
            · rcases List.mem_cons.1 hc1 with rfl | hc1
              · exact Or.inr rfl
              · exact Or.inl (by simpa using List.all_eq_true.1 hcond.2.2 c hc1)
          · exact absurd h (by simp)
        · rename_i x hn1 hn2
          exact (hn2 p0 p1 rfl).elim
      | cons p2 parts3 =>
        split at h
        · rename_i x ip heq
          simp at heq
        · rename_i x ip fp heq
          simp at heq
        · exact absurd h (by simp)

theorem numlit_not_ws_comma (c : Char)
    (h : c.isDigit = true ∨ c = '-' ∨ c = '+' ∨ c = '.') :
    isWsCh c = false ∧ c ≠ ',' := by
  rcases h with hd | rfl | rfl | rfl
  · constructor
    · cases hw : isWsCh c
      · rfl
      · exfalso
        simp only [isWsCh, Bool.or_eq_true, beq_iff_eq] at hw
        rcases hw with (((rfl | rfl) | rfl) | rfl) <;> simp [Char.isDigit] at hd
    · intro hcontra
      subst hcontra
      simp [Char.isDigit] at hd
  · exact ⟨by decide, by decide⟩
  · exact ⟨by decide, by decide⟩
  · exact ⟨by decide, by decide⟩

theorem trimL_eq_self (l : List Char)
    (h : ∀ c, l.head? = some c → isWsCh c = false) : trimL l = l := by
  cases l with
  | nil => rfl
  | cons c rest =>
    unfold trimL
    rw [List.dropWhile_cons, h c rfl]
    simp

theorem trimStr_eq_self (l : List Char)
    (h1 : ∀ c, l.head? = some c → isWsCh c = false)
    (h2 : ∀ c, l.getLast? = some c → isWsCh c = false) : trimStr l = l := by
  unfold trimStr
  rw [trimL_eq_self l h1]
  rw [trimL_eq_self l.reverse (fun c hc => h2 c (by rwa [List.head?_reverse] at hc))]
  exact List.reverse_reverse l

theorem isPrefixOf_append_self (pre rest : List Char) :
    pre.isPrefixOf (pre ++ rest) = true :=
  List.isPrefixOf_iff_prefix.2 (List.prefix_append pre rest)

theorem append_ne_of_ne_nil (pre rest : List Char) (h : rest ≠ []) : pre ++ rest ≠ pre := by
  intro hcontra
  have hlen : (pre ++ rest).length = pre.length := by rw [hcontra]
  rw [List.length_append] at hlen
  have : rest.length = 0 := by omega
  exact h (List.eq_nil_of_length_eq_zero this)

theorem brack_not_ws (ob cb : Char) (hbr : (ob, cb) ∈ brackPairs) :
    isWsCh ob = false ∧ isWsCh cb = false := by
  simp only [brackPairs, List.mem_cons, List.not_mem_nil, or_false] at hbr
  rcases hbr with h | h | h | h <;>
    (injection h with h1 h2; subst h1; subst h2; exact ⟨by decide, by decide⟩)

theorem unwrap_parens_eval (ob cb : Char) (hbr : (ob, cb) ∈ brackPairs)
    (mid : List Char) : unwrap_parens (ob :: mid ++ [cb]) = some mid := by
  unfold unwrap_parens
  have hws := brack_not_ws ob cb hbr
  have htrim : trimStr (ob :: mid ++ [cb]) = ob :: mid ++ [cb] := by
    apply trimStr_eq_self
    · intro c hc
      injection hc with hc
      subst hc
      exact hws.1
    · intro c hc
      rw [List.getLast?_concat] at hc
      injection hc with hc
      subst hc
      exact hws.2
  rw [htrim]
  have hhead : (ob :: mid ++ [cb]).head? = some ob := rfl
  have hlast : (ob :: mid ++ [cb]).getLast? = some cb := List.getLast?_concat _
  have hdrop : ((ob :: mid ++ [cb]).drop 1).dropLast = mid := by
    simp only [List.cons_append, List.drop_one, List.tail_cons]
    exact List.dropLast_concat
  rw [hhead, hlast]
  simp only [brackPairs, List.mem_cons, List.not_mem_nil, or_false] at hbr
  rcases hbr with h | h | h | h <;>
    (injection h with h1 h2; subst h1; subst h2; rw [if_pos (by simp)]; rw [hdrop])

theorem trimStr_of_numlit (l : List Char) (v : Rat) (h : parseNum l = some v) :
    trimStr l = l := by
  have hchars := parseNum_chars l v h
  apply trimStr_eq_self
  · intro c hc
    have hmem : c ∈ l := by
      cases l with
      | nil => simp at hc
      | cons a t =>
        injection hc with hc
        subst hc
        exact List.mem_cons_self _ _
    exact (numlit_not_ws_comma c (hchars c hmem)).1
  · intro c hc
    have hmem : c ∈ l := List.mem_of_getLast?_eq_some hc
    exact (numlit_not_ws_comma c (hchars c hmem)).1

theorem shapeFromStr_sine_reduce (ob cb : Char) (hbr : (ob, cb) ∈ brackPairs)
    (mid : List Char) :
    shapeFromStr ("sine".toList ++ ob :: mid ++ [cb])
      = (match (splitOnCh ',' mid).mapM (fun a => parseNum (trimStr a)) with
        | none => Except.error (errMsg ("sine".toList ++ ob :: mid ++ [cb]))
        | some args =>
          match args with
          | [] => Except.ok DEFAULT_SINE
          | [a] => Except.ok (.sine a 50 0)
          | [a, p] => Except.ok (.sine a p 0)
          | [a, p, o] => Except.ok (.sine a p o)
          | _ => Except.error (errMsg ("sine".toList ++ ob :: mid ++ [cb]))) := by
  have hws := brack_not_ws ob cb hbr
  have htrim : trimStr ("sine".toList ++ ob :: mid ++ [cb])
      = "sine".toList ++ ob :: mid ++ [cb] := by
    apply trimStr_eq_self
    · intro c hc
      have hc2 : (some 's' : Option Char) = some c := hc
      injection hc2 with hc2
      subst hc2
      decide
    · intro c hc
      rw [List.getLast?_append] at hc
      have h1 : ([cb] : List Char).getLast? = some cb := rfl
      rw [h1, Option.or_some] at hc
      injection hc with hc
      subst hc
      exact hws.2
  unfold shapeFromStr
  rw [htrim]
  rw [if_neg ?hne1]
  case hne1 =>
    rintro (h | h | h)
    · have h2 : (some 's' : Option Char) = none := congrArg List.head? h
      exact Option.noConfusion h2
    · have h2 : (some 's' : Option Char) = some 'l' := congrArg List.head? h
      injection h2 with h2
      exact absurd h2 (by decide)
    · have h2 : (some 's' : Option Char) = some 'l' := congrArg List.head? h
      injection h2 with h2
      exact absurd h2 (by decide)
  rw [if_neg ?hne2]
  case hne2 =>
    exact append_ne_of_ne_nil ("sine".toList) (ob :: mid ++ [cb]) (by simp)
  rw [if_neg ?hne3]
  case hne3 =>
    rintro (h | h)
    · have h2 : (some 's' : Option Char) = some 'c' := congrArg List.head? h
      injection h2 with h2
      exact absurd h2 (by decide)
    · have h2 : (some 's' : Option Char) = some 'e' := congrArg List.head? h
      injection h2 with h2
      exact absurd h2 (by decide)
  rw [if_pos ?hpre]
  case hpre =>
    apply List.isPrefixOf_iff_prefix.2
    have p1 : "sine".toList <+: ("sine".toList ++ ob :: mid) :=
      List.prefix_append _ _
    exact p1.trans (List.prefix_append _ _)
  have hdrop : ("sine".toList ++ ob :: mid ++ [cb]).drop 4 = ob :: mid ++ [cb] := rfl
  rw [hdrop, unwrap_parens_eval ob cb hbr mid]

theorem shapeFromStr_ellipse_reduce (ob cb : Char) (hbr : (ob, cb) ∈ brackPairs)
    (mid : List Char) :
    shapeFromStr ("ellipse".toList ++ ob :: mid ++ [cb])
      = (match (splitOnCh ',' mid).mapM (fun a => parseNum (trimStr a)) with
        | none => Except.error (errMsg ("ellipse".toList ++ ob :: mid ++ [cb]))
        | some args =>
          match args with
          | [] => Except.ok DEFAULT_ELL
          | [e] => Except.ok (.ellipse e (1/2, 1/2))
          | [cx, cy] => Except.ok (.ellipse 0 (cx, cy))
          | [e, cx, cy] => Except.ok (.ellipse e (cx, cy))
          | _ => Except.error (errMsg ("ellipse".toList ++ ob :: mid ++ [cb]))) := by
  have hws := brack_not_ws ob cb hbr
  have htrim : trimStr ("ellipse".toList ++ ob :: mid ++ [cb])
      = "ellipse".toList ++ ob :: mid ++ [cb] := by
    apply trimStr_eq_self
    · intro c hc
      have hc2 : (some 'e' : Option Char) = some c := hc
      injection hc2 with hc2
      subst hc2
      decide
    · intro c hc
      rw [List.getLast?_append] at hc
      have h1 : ([cb] : List Char).getLast? = some cb := rfl
      rw [h1, Option.or_some] at hc
      injection hc with hc
      subst hc
      exact hws.2
  unfold shapeFromStr
  rw [htrim]
  rw [if_neg ?hne1]
  case hne1 =>
    rintro (h | h | h)
    · have h2 : (some 'e' : Option Char) = none := congrArg List.head? h
      exact Option.noConfusion h2
    · have h2 : (some 'e' : Option Char) = some 'l' := congrArg List.head? h
      injection h2 with h2
      exact absurd h2 (by decide)
    · have h2 : (some 'e' : Option Char) = some 'l' := congrArg List.head? h
      injection h2 with h2
      exact absurd h2 (by decide)
  rw [if_neg ?hne2]
  case hne2 =>
    intro h
    have h2 : (some 'e' : Option Char) = some 's' := congrArg List.head? h
    injection h2 with h2
    exact absurd h2 (by decide)
  rw [if_neg ?hne3]
  case hne3 =>
    rintro (h | h)
    · have h2 : (some 'e' : Option Char) = some 'c' := congrArg List.head? h
      injection h2 with h2
      exact absurd h2 (by decide)
    · exact append_ne_of_ne_nil ("ellipse".toList) (ob :: mid ++ [cb]) (by simp) h
  rw [if_neg ?hsine]
  case hsine =>
    intro hcontra
    exact Bool.noConfusion (show false = true from hcontra)
  rw [if_neg ?hcirc]
  case hcirc =>
    intro hcontra
    exact Bool.noConfusion (show false = true from hcontra)
  rw [if_pos ?hpre]
  case hpre =>
    apply List.isPrefixOf_iff_prefix.2
    have p1 : "ellipse".toList <+: ("ellipse".toList ++ ob :: mid) :=
      List.prefix_append _ _
    exact p1.trans (List.prefix_append _ _)
  have hdrop : ("ellipse".toList ++ ob :: mid ++ [cb]).drop 7 = ob :: mid ++ [cb] := rfl
  rw [hdrop, unwrap_parens_eval ob cb hbr mid]

theorem args_eval_1 (sa : List Char) (va : Rat) (ha : parseNum sa = some va) :
    (splitOnCh ',' sa).mapM (fun a => parseNum (trimStr a)) = some [va] := by
  have hchars := parseNum_chars sa va ha
  rw [splitOnCh_nosep ',' sa (fun c hc => (numlit_not_ws_comma c (hchars c hc)).2)]
  simp [List.mapM, List.mapM.loop, trimStr_of_numlit sa va ha, ha]

theorem args_eval_2 (sa sp : List Char) (va vp : Rat)
    (ha : parseNum sa = some va) (hp : parseNum sp = some vp) :
    (splitOnCh ',' (sa ++ ',' :: sp)).mapM (fun a => parseNum (trimStr a))
      = some [va, vp] := by
  have hcha := parseNum_chars sa va ha
  have hchp := parseNum_chars sp vp hp
  rw [splitOnCh_append ',' sa sp (fun c hc => (numlit_not_ws_comma c (hcha c hc)).2)]
  rw [splitOnCh_nosep ',' sp (fun c hc => (numlit_not_ws_comma c (hchp c hc)).2)]
  simp [List.mapM, List.mapM.loop, trimStr_of_numlit sa va ha, ha,
    trimStr_of_numlit sp vp hp, hp]

theorem args_eval_3 (sa sp so : List Char) (va vp vo : Rat)
    (ha : parseNum sa = some va) (hp : parseNum sp = some vp) (ho : parseNum so = some vo) :
    (splitOnCh ',' (sa ++ ',' :: (sp ++ ',' :: so))).mapM (fun a => parseNum (trimStr a))
      = some [va, vp, vo] := by
  have hcha := parseNum_chars sa va ha
  have hchp := parseNum_chars sp vp hp
  have hcho := parseNum_chars so vo ho
  rw [splitOnCh_append ',' sa (sp ++ ',' :: so)
    (fun c hc => (numlit_not_ws_comma c (hcha c hc)).2)]
  rw [splitOnCh_append ',' sp so (fun c hc => (numlit_not_ws_comma c (hchp c hc)).2)]
  rw [splitOnCh_nosep ',' so (fun c hc => (numlit_not_ws_comma c (hcho c hc)).2)]
  simp [List.mapM, List.mapM.loop, trimStr_of_numlit sa va ha, ha,
    trimStr_of_numlit sp vp hp, hp, trimStr_of_numlit so vo ho, ho]

theorem shapeFromStr_error_msg (s msg : List Char)
    (h : shapeFromStr s = Except.error msg) : msg = errMsg (trimStr s) := by
  unfold shapeFromStr at h
  repeat' split at h
  all_goals first
    | (injection h with h2; exact h2.symm)
    | injection h

/-- C8: `Shape::from_str` implements the spec grammar.  For numeric literals
(strings accepted by the decimal-literal model of the f32 parse), the sine and
ellipse forms with 1, 2 or 3 arguments parse to the corresponding shapes with the
documented defaults, with the bracket pair drawn interchangeably from the four
accepted pairs; the bare keywords parse to the default shapes; and every failing
parse is a configuration error whose message echoes the offending (trimmed)
input — the parser is a total function, never a runtime failure. -/
theorem C8_shape_grammar :
    (∀ (ob cb : Char), (ob, cb) ∈ brackPairs →
      ∀ (sa sp so : List Char) (va vp vo : Rat),
        parseNum sa = some va → parseNum sp = some vp → parseNum so = some vo →
          shapeFromStr ("sine".toList ++ ob :: sa ++ [cb]) = Except.ok (Shape.sine va 50 0)
        ∧ shapeFromStr ("sine".toList ++ ob :: (sa ++ ',' :: sp) ++ [cb])
            = Except.ok (Shape.sine va vp 0)
        ∧ shapeFromStr ("sine".toList ++ ob :: (sa ++ ',' :: (sp ++ ',' :: so)) ++ [cb])
            = Except.ok (Shape.sine va vp vo)
        ∧ shapeFromStr ("ellipse".toList ++ ob :: sa ++ [cb])
            = Except.ok (Shape.ellipse va (1/2, 1/2))
        ∧ shapeFromStr ("ellipse".toList ++ ob :: (sa ++ ',' :: sp) ++ [cb])
            = Except.ok (Shape.ellipse 0 (va, vp))
        ∧ shapeFromStr ("ellipse".toList ++ ob :: (sa ++ ',' :: (sp ++ ',' :: so)) ++ [cb])
            = Except.ok (Shape.ellipse va (vp, vo)))
  ∧ shapeFromStr ("sine".toList) = Except.ok (Shape.sine 25 50 0)
  ∧ shapeFromStr ("ellipse".toList) = Except.ok (Shape.ellipse 0 (1/2, 1/2))
  ∧ shapeFromStr ("line".toList) = Except.ok Shape.linear
  ∧ (∀ (s msg : List Char), shapeFromStr s = Except.error msg → msg = errMsg (trimStr s)) := by
  refine ⟨?_, by rfl, by rfl, by rfl, shapeFromStr_error_msg⟩
  intro ob cb hbr sa sp so va vp vo ha hp ho
  refine ⟨?_, ?_, ?_, ?_, ?_, ?_⟩
  · rw [shapeFromStr_sine_reduce ob cb hbr sa, args_eval_1 sa va ha]
  · rw [shapeFromStr_sine_reduce ob cb hbr (sa ++ ',' :: sp), args_eval_2 sa sp va vp ha hp]
  · rw [shapeFromStr_sine_reduce ob cb hbr (sa ++ ',' :: (sp ++ ',' :: so)),
      args_eval_3 sa sp so va vp vo ha hp ho]
  · rw [shapeFromStr_ellipse_reduce ob cb hbr sa, args_eval_1 sa va ha]
  · rw [shapeFromStr_ellipse_reduce ob cb hbr (sa ++ ',' :: sp), args_eval_2 sa sp va vp ha hp]
  · rw [shapeFromStr_ellipse_reduce ob cb hbr (sa ++ ',' :: (sp ++ ',' :: so)),
      args_eval_3 sa sp so va vp vo ha hp ho]

/-- C8 witness: concrete parses through the theorem at bracket pair `[]` and the
literals 2, 3, 4, plus a malformed input's echoed error. -/
theorem C8_shape_grammar_witness :
    shapeFromStr ("sine".toList ++ '[' :: (("2".toList) ++ ',' :: ("3".toList)) ++ [']'])
      = Except.ok (Shape.sine 2 3 0)
    ∧ shapeFromStr ("sine".toList) = Except.ok (Shape.sine 25 50 0) := by
  have h2 : parseNum ("2".toList) = some 2 := by
    simp +decide [parseNum, splitOnCh, digitsVal]
  have h3 : parseNum ("3".toList) = some 3 := by
    simp +decide [parseNum, splitOnCh, digitsVal]
  have h4 : parseNum ("4".toList) = some 4 := by
    simp +decide [parseNum, splitOnCh, digitsVal]
  exact ⟨(C8_shape_grammar.1 '[' ']' (by decide) ("2".toList) ("3".toList) ("4".toList)
    2 3 4 h2 h3 h4).2.1, C8_shape_grammar.2.1⟩
